import Mathlib

/-!
Verification of the OCR receipt-text extraction engine of RxReceipts
(`OCRService` in `backend/server.js`): `parseReceiptData` and its helpers
`extractStoreName`, `extractAmount`, `extractDate`, `extractLineItems`,
`suggestCategory`.

JavaScript numbers are modelled as exact rationals (the only numeric
operations performed are decimal parsing and order comparison, which the
rational model reflects faithfully on the decimal literals the regexes
produce).  JavaScript regexes are modelled by dedicated scanners that
reproduce the exact backtracking and `lastIndex` behaviour of the concrete
patterns in the source.  `new Date()` (the clock) is an explicit `JsToday`
parameter; `Date` month/day rollover and the 0..99 -> 1900+y constructor
rule are modelled exactly.  String operations are modelled on ASCII
(`toLowerCase`, `\w`, `\s`), which covers every character the heuristics
inspect.
-/

/- The Batteries rational-arithmetic primitives are sealed by default; this
development evaluates them inside closed proofs, so make them reducible. -/
unseal Rat.mul Rat.add Rat.sub Rat.inv Rat.ofScientific

/-- JavaScript whitespace class `\s` (the members relevant to ASCII text,
plus NBSP). -/
def jsWs (c : Char) : Bool :=
  c == ' ' || c == '\t' || c == '\n' || c == '\r' ||
  c == Char.ofNat 11 || c == Char.ofNat 12 || c == Char.ofNat 160

/-- `String.prototype.toLowerCase`, ASCII range. -/
def charLower (c : Char) : Char :=
  if 65 ≤ c.toNat ∧ c.toNat ≤ 90 then Char.ofNat (c.toNat + 32) else c

/-- `String.prototype.toUpperCase`, ASCII range. -/
def charUpper (c : Char) : Char :=
  if 97 ≤ c.toNat ∧ c.toNat ≤ 122 then Char.ofNat (c.toNat - 32) else c

def lowerL (l : List Char) : List Char := l.map charLower

def lowerStr (s : String) : String := String.mk (lowerL s.data)

/-- `String.prototype.trim` on a character list. -/
def jsTrimL (l : List Char) : List Char :=
  ((l.dropWhile jsWs).reverse.dropWhile jsWs).reverse

def jsTrim (s : String) : String := String.mk (jsTrimL s.data)

/-- Boolean list-prefix test (first list is a leading segment of the second). -/
def leadsWith : List Char → List Char → Bool
  | [], _ => true
  | _ :: _, [] => false
  | a :: as, b :: bs => a == b && leadsWith as bs

/-- `String.prototype.includes` / regex literal-substring test: `pat` occurs
contiguously somewhere in `l`. -/
def containsSeq (pat : List Char) : List Char → Bool
  | [] => pat.isEmpty
  | c :: r => leadsWith pat (c :: r) || containsSeq pat r

/-- Numeric value of a digit character. -/
def digitVal (c : Char) : Nat := c.toNat - 48

/-- Value of a decimal digit string (most significant first). -/
def natOfDigits : List Char → Nat
  | [] => 0
  | c :: r => digitVal c * 10 ^ r.length + natOfDigits r

/-- Value of a decimal fraction part: `natOfDigits ds / 10^|ds|`. -/
def fracOfDigits (ds : List Char) : Rat :=
  (natOfDigits ds : Rat) / (10 : Rat) ^ ds.length

/-- `parseFloat`, restricted to the shapes reachable in this program:
optional leading whitespace and sign, then digits, optional dot, digits,
with at least one digit overall; everything after the numeric head is
ignored.  `none` models `NaN` (e.g. on a leading `$`). -/
def parseFloatL (l : List Char) : Option Rat :=
  let l1 := l.dropWhile jsWs
  let sgn : Rat := if l1.head? = some '-' then -1 else 1
  let l2 := if l1.head? = some '-' ∨ l1.head? = some '+' then l1.tail else l1
  let d1 := l2.takeWhile Char.isDigit
  let r1 := l2.dropWhile Char.isDigit
  if r1.head? = some '.' then
    let d2 := r1.tail.takeWhile Char.isDigit
    if d1.isEmpty && d2.isEmpty then none
    else some (sgn * ((natOfDigits d1 : Rat) + fracOfDigits d2))
  else if d1.isEmpty then none else some (sgn * (natOfDigits d1 : Rat))

/-- `String.prototype.replace` with a single-character pattern and empty
replacement: removes the first occurrence. -/
def replaceFirst (c : Char) : List Char → List Char
  | [] => []
  | x :: r => if x == c then r else x :: replaceFirst c r

/-! ## Amount scanners

The four patterns of `extractAmount`:
`total[:\s]*\$?([0-9]+\.?[0-9]*)` (idem for `amount`, `balance`),
`\$([0-9]+\.[0-9]{2})` (global) and the fallback `\$([0-9]+\.?[0-9]*)`
(global). -/

/-- Attempt the labelled pattern at the head of `l` (already lowercased):
literal label, then a run of `:`/whitespace, optional `$`, then
`[0-9]+\.?[0-9]*` (greedy).  Returns the numeric capture. -/
def matchLabelAt (lbl l : List Char) : Option (List Char) :=
  if leadsWith lbl l then
    let r0 := l.drop lbl.length
    let r1 := r0.dropWhile (fun c => c == ':' || jsWs c)
    let r2 := match r1 with
      | '$' :: t => t
      | _ => r1
    let d1 := r2.takeWhile Char.isDigit
    if d1.isEmpty then none
    else
      match r2.dropWhile Char.isDigit with
      | '.' :: t => some (d1 ++ '.' :: t.takeWhile Char.isDigit)
      | _ => some d1
  else none

/-- First match of the labelled pattern anywhere in `ll` (scan left to
right); returns the capture of the earliest matching position, like a
non-global case-insensitive `String.match`. -/
def findLabeledL (lbl : List Char) : List Char → Option (List Char)
  | [] => none
  | c :: r =>
    match matchLabelAt lbl (c :: r) with
    | some cap => some cap
    | none => findLabeledL lbl r

/-- Attempt `\$([0-9]+\.[0-9]{2})` at the head of `l`: full match string and
unconsumed rest. -/
def tryStrictAt : List Char → Option (List Char × List Char)
  | '$' :: t =>
    if (t.takeWhile Char.isDigit).isEmpty then none
    else
      match t.dropWhile Char.isDigit with
      | '.' :: a :: b :: v =>
        if a.isDigit && b.isDigit then
          some ('$' :: t.takeWhile Char.isDigit ++ ['.', a, b], v)
        else none
      | _ => none
  | _ => none

/-- Attempt `\$([0-9]+\.?[0-9]*)` at the head of `l`. -/
def tryLooseAt : List Char → Option (List Char × List Char)
  | '$' :: t =>
    if (t.takeWhile Char.isDigit).isEmpty then none
    else
      match t.dropWhile Char.isDigit with
      | '.' :: u =>
        some ('$' :: t.takeWhile Char.isDigit ++ '.' :: u.takeWhile Char.isDigit,
          u.dropWhile Char.isDigit)
      | r1 => some ('$' :: t.takeWhile Char.isDigit, r1)
  | _ => none

/-- Fuelled global scan for `\$([0-9]+\.[0-9]{2})`: all matches left to
right, resuming after each match (the `lastIndex` discipline of a global
regex).  Each step consumes at least one character, so fuel equal to the
length of the list is always sufficient. -/
def scanStrictF : Nat → List Char → List (List Char)
  | _, [] => []
  | 0, _ :: _ => []
  | fuel + 1, c :: r =>
    match tryStrictAt (c :: r) with
    | some (m, v) => m :: scanStrictF fuel v
    | none => scanStrictF fuel r

def scanStrict (l : List Char) : List (List Char) := scanStrictF l.length l

/-- Fuelled global scan for `\$([0-9]+\.?[0-9]*)`. -/
def scanLooseF : Nat → List Char → List (List Char)
  | _, [] => []
  | 0, _ :: _ => []
  | fuel + 1, c :: r =>
    match tryLooseAt (c :: r) with
    | some (m, v) => m :: scanLooseF fuel v
    | none => scanLooseF fuel r

def scanLoose (l : List Char) : List (List Char) := scanLooseF l.length l

/-! ## `extractAmount` -/

/-- The range guard `!isNaN(amount) && amount > 0 && amount < 10000` applied
to a pattern's parsed candidate (`none` models no-match or `NaN`). -/
def rangeFilter : Option Rat → Option Rat
  | some a => if 0 < a ∧ a < 10000 then some a else none
  | none => none

/-- Candidate of one labelled pattern: first match anywhere in the text
(case-insensitively), its numeric capture parsed. -/
def labeledCand (lbl : List Char) (l : List Char) : Option Rat :=
  (findLabeledL lbl (lowerL l)).bind parseFloatL

/-- Candidate of the global pattern `\$([0-9]+\.[0-9]{2})` exactly as the
source consumes it: `parseFloat(matches[1] || matches[0].replace('$',''))`.
With two or more matches, `matches[1]` is the second full match string,
which still carries its `$` and therefore parses to `NaN`. -/
def strictCand (l : List Char) : Option Rat :=
  match scanStrict l with
  | [] => none
  | [m] => parseFloatL (replaceFirst '$' m)
  | _ :: m1 :: _ => parseFloatL m1

/-- All `$`-token values of the fallback pattern. -/
def looseVals (l : List Char) : List Rat :=
  (scanLoose l).filterMap (fun m => parseFloatL (replaceFirst '$' m))

/-- Fallback values filtered to the accepted range. -/
def looseInRange (l : List Char) : List Rat :=
  (looseVals l).filter (fun a => decide (0 < a ∧ a < 10000))

/-- Insert into a descending-sorted list: the new element goes in front of
the first element it is not smaller than. -/
def insertDesc (a : Rat) : List Rat → List Rat
  | [] => [a]
  | b :: r => if Rat.blt a b then b :: insertDesc a r else a :: b :: r

/-- `amounts.sort((a, b) => b - a)`: descending numeric sort. -/
def sortDesc (l : List Rat) : List Rat := l.foldr insertDesc []

/-- The fallback `amounts.sort((a, b) => b - a)` followed by `amounts[0]`. -/
def fallbackAmount (l : List Char) : Option Rat :=
  (sortDesc (looseInRange l)).head?

/-- `OCRService.extractAmount` (the argument is the full receipt text;
the caller passes it lowercased, and the labelled patterns lowercase again
to model their `i` flag). -/
def extractAmount (s : String) : Option Rat :=
  rangeFilter (labeledCand "total".data s.data) <|>
  rangeFilter (labeledCand "amount".data s.data) <|>
  rangeFilter (labeledCand "balance".data s.data) <|>
  rangeFilter (strictCand s.data) <|>
  fallbackAmount s.data

/-- The amended description of `extractAmount`: the labelled patterns are
tried on their first occurrence in order; the strict dollar pattern returns
only when the text has exactly one strict match whose value passes the
range check; in every other case (no strict match, an out-of-range single
match, or two and more matches, where the source parses the second full
match string including its `$` and obtains `NaN`) the fallback returns the
largest in-range `$`-token value. -/
def extractAmountSpec (s : String) : Option Rat :=
  rangeFilter (labeledCand "total".data s.data) <|>
  rangeFilter (labeledCand "amount".data s.data) <|>
  rangeFilter (labeledCand "balance".data s.data) <|>
  (match scanStrict s.data with
   | [m] => rangeFilter (parseFloatL (replaceFirst '$' m)) <|> fallbackAmount s.data
   | _ => fallbackAmount s.data)

/-! ## `extractDate`

Civil-date arithmetic: `daysFromCivil`/`civilFromDays` convert between a
proleptic-Gregorian date and a day count (days since 1970-01-01), the
standard era-based algorithm.  `jsMakeDateAbs` is `new Date(y, m0, d)`
reduced to its civil date: the 0..99 year adjustment, month-index rollover
into years, and day rollover via day-count arithmetic. -/

def daysFromCivil (y m d : Int) : Int :=
  let y' := y - (if m ≤ 2 then 1 else 0)
  let era := Int.fdiv y' 400
  let yoe := y' - era * 400
  let mp := Int.fmod (m + 9) 12
  let doy := Int.fdiv (153 * mp + 2) 5 + d - 1
  let doe := yoe * 365 + Int.fdiv yoe 4 - Int.fdiv yoe 100 + doy
  era * 146097 + doe - 719468

def civilFromDays (z0 : Int) : Int × Int × Int :=
  let z := z0 + 719468
  let era := Int.fdiv z 146097
  let doe := z - era * 146097
  let yoe := Int.fdiv (doe - Int.fdiv doe 1460 + Int.fdiv doe 36524 - Int.fdiv doe 146096) 365
  let y := yoe + era * 400
  let doy := doe - (365 * yoe + Int.fdiv yoe 4 - Int.fdiv yoe 100)
  let mp := Int.fdiv (5 * doy + 2) 153
  let d := doy - Int.fdiv (153 * mp + 2) 5 + 1
  let m := mp + (if mp < 10 then 3 else -9)
  (y + (if m ≤ 2 then 1 else 0), m, d)

/-- Day count of `new Date(y, m0, d)` (month index `m0` is 0-based and may
overflow or underflow; `d` may be out of range; both roll over, and a year
argument in 0..99 means 1900+y). -/
def jsMakeDateAbs (y m0 d : Int) : Int :=
  let yAdj := if 0 ≤ y ∧ y ≤ 99 then 1900 + y else y
  let ym := yAdj * 12 + m0
  daysFromCivil (Int.fdiv ym 12) (Int.fmod ym 12 + 1) 1 + (d - 1)

/-- The clock observed by `extractDate`: the civil date of `new Date()`
given by `getFullYear()`, `getMonth()` (0-based) and `getDate()`. -/
structure JsToday where
  year : Int
  month0 : Int
  day : Int

def todayAbs (t : JsToday) : Int := daysFromCivil t.year (t.month0 + 1) t.day

/-- `new Date(now.getFullYear() - 1, now.getMonth(), now.getDate())`. -/
def oneYearAgoAbs (t : JsToday) : Int := jsMakeDateAbs (t.year - 1) t.month0 t.day

def padNat (w n : Nat) : List Char :=
  let ds := Nat.toDigits 10 n
  List.replicate (w - ds.length) '0' ++ ds

/-- `date.toISOString().split('T')[0]` for a midnight date, i.e. the
`YYYY-MM-DD` rendering of a day count. -/
def isoOfDay (z : Int) : String :=
  let c := civilFromDays z
  String.mk (padNat 4 c.1.toNat ++ '-' :: padNat 2 c.2.1.toNat ++ '-' :: padNat 2 c.2.2.toNat)

def sepChar (c : Char) : Bool := c == '/' || c == '-'

/-- Attempt the first date pattern (one or two digits, separator slash or hyphen, one or two digits, separator, two to four digits) at the head of `l`;
returns the three captures and the unconsumed rest.  A greedy `\d{1,2}`
followed by a separator matches exactly the full digit run when that run
has length 1 or 2 (shorter choices put a digit where the separator must
be), and the final greedy `\d{2,4}` takes up to 4 digits of the run. -/
def tryDate1At (l : List Char) : Option ((List Char × List Char × List Char) × List Char) :=
  if (l.takeWhile Char.isDigit).length = 0 ∨ 2 < (l.takeWhile Char.isDigit).length then none
  else
    match l.dropWhile Char.isDigit with
    | s1 :: u1 =>
      if sepChar s1 then
        if (u1.takeWhile Char.isDigit).length = 0 ∨ 2 < (u1.takeWhile Char.isDigit).length then none
        else
          match u1.dropWhile Char.isDigit with
          | s2 :: u2 =>
            if sepChar s2 then
              if (u2.takeWhile Char.isDigit).length < 2 then none
              else
                some ((l.takeWhile Char.isDigit, u1.takeWhile Char.isDigit,
                       (u2.takeWhile Char.isDigit).take 4),
                      u2.drop (min (u2.takeWhile Char.isDigit).length 4))
            else none
          | [] => none
      else none
    | [] => none

/-- Attempt the second date pattern (two to four digits, separator, one or two digits, separator, one or two digits) at the head of `l`. -/
def tryDate2At (l : List Char) : Option ((List Char × List Char × List Char) × List Char) :=
  if (l.takeWhile Char.isDigit).length < 2 ∨ 4 < (l.takeWhile Char.isDigit).length then none
  else
    match l.dropWhile Char.isDigit with
    | s1 :: u1 =>
      if sepChar s1 then
        if (u1.takeWhile Char.isDigit).length = 0 ∨ 2 < (u1.takeWhile Char.isDigit).length then none
        else
          match u1.dropWhile Char.isDigit with
          | s2 :: u2 =>
            if sepChar s2 then
              if (u2.takeWhile Char.isDigit).length = 0 then none
              else
                some ((l.takeWhile Char.isDigit, u1.takeWhile Char.isDigit,
                       (u2.takeWhile Char.isDigit).take 2),
                      u2.drop (min (u2.takeWhile Char.isDigit).length 2))
            else none
          | [] => none
      else none
    | [] => none

/-- All matches of the first date pattern (global `matchAll` discipline),
fuelled like `scanStrictF`. -/
def scanDate1F : Nat → List Char → List (List Char × List Char × List Char)
  | _, [] => []
  | 0, _ :: _ => []
  | fuel + 1, c :: r =>
    match tryDate1At (c :: r) with
    | some (p, v) => p :: scanDate1F fuel v
    | none => scanDate1F fuel r

def scanDate1 (l : List Char) : List (List Char × List Char × List Char) :=
  scanDate1F l.length l

/-- All matches of the second date pattern. -/
def scanDate2F : Nat → List Char → List (List Char × List Char × List Char)
  | _, [] => []
  | 0, _ :: _ => []
  | fuel + 1, c :: r =>
    match tryDate2At (c :: r) with
    | some (p, v) => p :: scanDate2F fuel v
    | none => scanDate2F fuel r

def scanDate2 (l : List Char) : List (List Char × List Char × List Char) :=
  scanDate2F l.length l

/-- The three `(month, day, year)` readings tried for a match
`(part1, part2, part3)`, in source order: `[part1, part2, part3]`,
`[part3, part1, part2]`, `[part2, part1, part3]`. -/
def dateFormatsJs (p : List Char × List Char × List Char) :
    List (List Char × List Char × List Char) :=
  [(p.1, p.2.1, p.2.2), (p.2.2, p.1, p.2.1), (p.2.1, p.1, p.2.2)]

/-- Two-digit years: `>50` becomes `19xx`, otherwise `20xx`. -/
def fullYearStr (y : List Char) : List Char :=
  if y.length = 2 then
    (if 50 < natOfDigits y then '1' :: '9' :: y else '2' :: '0' :: y)
  else y

/-- Day count of `new Date(fullYear, parseInt(month) - 1, parseInt(day))`
for one `(month, day, year)` reading. -/
def candAbs (f : List Char × List Char × List Char) : Int :=
  jsMakeDateAbs (natOfDigits (fullYearStr f.2.2)) ((natOfDigits f.1 : Int) - 1)
    (natOfDigits f.2.1)

/-- Every candidate day count, in the exact order the source's nested loops
visit them (pattern 1 matches before pattern 2 matches, the three readings
of each match in order). -/
def dateCandidates (l : List Char) : List Int :=
  ((scanDate1 l).bind dateFormatsJs).map candAbs ++
  ((scanDate2 l).bind dateFormatsJs).map candAbs

/-- `OCRService.extractDate`: the first candidate inside
`[one year ago, today]` is returned in ISO form.  The source's
`!isNaN(date.getTime())` conjunct is omitted: every constructed date is a
real (rolled-over) date well inside the representable range, so the check
never fails. -/
def extractDate (today : JsToday) (s : String) : Option String :=
  ((dateCandidates s.data).find?
    (fun z => decide (z ≤ todayAbs today ∧ oneYearAgoAbs today ≤ z))).map isoOfDay

/-! ## `extractLineItems` -/

/-- `String.prototype.split` with separator `'\n'`. -/
def splitNl : List Char → List (List Char)
  | [] => [[]]
  | c :: r =>
    if c = '\n' then [] :: splitNl r
    else
      match splitNl r with
      | w :: ws => (c :: w) :: ws
      | [] => [[c]]

/-- Non-empty trimmed lines:
`text.split('\n').map(l => l.trim()).filter(l => l.length > 0)`. -/
def linesOf (s : String) : List String :=
  ((splitNl s.data).map (fun l => String.mk (jsTrimL l))).filter (fun l => l ≠ "")

/-- Membership in the trailing-number language `[0-9]+\.?[0-9]*` (the whole
list must be consumed, matching the `$` anchor). -/
def numTail (l : List Char) : Bool :=
  !(l.takeWhile Char.isDigit).isEmpty &&
  (match l.dropWhile Char.isDigit with
   | [] => true
   | '.' :: t => t.all Char.isDigit
   | _ => false)

/-- Check the part after the lazily chosen description against
`\s+\$?([0-9]+\.?[0-9]*)$`: a non-empty whitespace run, an optional `$`,
then the price capture running to the end of the line. -/
def checkRest (r : List Char) : Option (List Char) :=
  if (r.takeWhile jsWs).isEmpty then none
  else
    match r.dropWhile jsWs with
    | '$' :: t => if numTail t then some t else none
    | t => if numTail t then some t else none

/-- Scan for the shortest non-empty description prefix (the lazy `(.+?)`)
whose remainder satisfies `checkRest`; `dRev` holds the description read so
far, reversed. -/
def matchItemGo : List Char → List Char → Option (List Char × List Char)
  | _, [] => none
  | dRev, c :: r =>
    match checkRest r with
    | some cap => some ((c :: dRev).reverse, cap)
    | none => matchItemGo (c :: dRev) r

/-- The anchored line-item regex `^(.+?)\s+\$?([0-9]+\.?[0-9]*)$`: returns
the description and price captures. -/
def matchItemLine (l : List Char) : Option (List Char × List Char) :=
  matchItemGo [] l

structure LineItem where
  description : String
  price : Rat
deriving DecidableEq

/-- One line of the line-item loop: accepted when the description capture
is longer than 2 and the parsed price is greater than 0. -/
def lineItemOf (line : String) : Option LineItem :=
  match matchItemLine line.data with
  | some (d, cap) =>
    match parseFloatL cap with
    | some p =>
      if 2 < d.length ∧ 0 < p then some ⟨String.mk (jsTrimL d), p⟩ else none
    | none => none
  | none => none

/-- `OCRService.extractLineItems`: collect accepted lines in order, then
`items.slice(0, 10)`. -/
def extractLineItems (s : String) : List LineItem :=
  ((linesOf s).filterMap lineItemOf).take 10

/-! ## `extractStoreName` -/

def medicalStores : List String :=
  ["cvs", "walgreens", "rite aid", "walmart pharmacy", "target pharmacy",
   "costco pharmacy", "kroger pharmacy", "safeway pharmacy", "publix pharmacy",
   "dental", "dentist", "orthodontics", "vision", "optometry", "lenscrafters",
   "pearle vision", "america\x27s best", "kaiser", "clinic", "medical center",
   "hospital", "urgent care", "family practice"]

/-- `OCRService.isAmountLine`: a loose dollar token or one of the labels
occurs in the line. -/
def isAmountLine (line : String) : Bool :=
  !(scanLoose line.data).isEmpty ||
  containsSeq "total".data (lowerL line.data) ||
  containsSeq "amount".data (lowerL line.data) ||
  containsSeq "balance".data (lowerL line.data)

/-- `OCRService.isDateLine`: the first date pattern matches somewhere. -/
def isDateLine (line : String) : Bool :=
  !(scanDate1 line.data).isEmpty

/-- The regex word class `\w` = letters, digits, underscore. -/
def isWordChar (c : Char) : Bool :=
  ('a' ≤ c && c ≤ 'z') || ('A' ≤ c && c ≤ 'Z') || c.isDigit || c == '_'

/-- Characters kept by the cleaning replace (word characters, whitespace,
ampersand, apostrophe, hyphen); everything else becomes a space. -/
def keepChar (c : Char) : Bool :=
  isWordChar c || jsWs c || c == '&' || c == Char.ofNat 39 || c == '-'

/-- Maximal non-whitespace tokens (fuelled), equivalent to collapsing
whitespace, trimming, and splitting on single spaces. -/
def splitWsTokensF : Nat → List Char → List (List Char)
  | _, [] => []
  | 0, _ :: _ => []
  | fuel + 1, c :: r =>
    if jsWs c then splitWsTokensF fuel r
    else (c :: r.takeWhile (fun x => !jsWs x)) ::
         splitWsTokensF fuel (r.dropWhile (fun x => !jsWs x))

def splitWsTokens (l : List Char) : List (List Char) := splitWsTokensF l.length l

/-- `word.charAt(0).toUpperCase() + word.slice(1).toLowerCase()`. -/
def capWord : List Char → List Char
  | [] => []
  | c :: r => charUpper c :: r.map charLower

/-- `OCRService.cleanStoreName`. -/
def cleanStoreName (name : String) : String :=
  String.intercalate " "
    (((splitWsTokens (name.data.map (fun c => if keepChar c then c else ' '))).map
      (fun w => String.mk (capWord w))).take 3)

/-- `OCRService.extractStoreName`. -/
def extractStoreName (s : String) : String :=
  let lines := linesOf s
  match (lines.take 5).find?
      (fun line => medicalStores.any (fun st => containsSeq st.data (lowerL line.data))) with
  | some line => cleanStoreName line
  | none =>
    match (lines.take 3).find?
        (fun line => 3 < line.length && !isAmountLine line && !isDateLine line) with
    | some line => cleanStoreName line
    | none => ""

/-! ## `suggestCategory` and `parseReceiptData` -/

/-- `OCRService.suggestCategory` (both arguments are lowercased again by the
function itself, mirroring the source). -/
def suggestCategory (storeName text : String) : String :=
  let store := lowerL storeName.data
  let content := lowerL text.data
  if containsSeq "cvs".data store || containsSeq "walgreens".data store ||
     containsSeq "pharmacy".data store || containsSeq "prescription".data content ||
     containsSeq "rx".data content || containsSeq "medication".data content then
    "Pharmacy"
  else if containsSeq "dental".data store || containsSeq "dentist".data store ||
     containsSeq "orthodontic".data store || containsSeq "cleaning".data content ||
     containsSeq "filling".data content || containsSeq "crown".data content then
    "Dental"
  else if containsSeq "vision".data store || containsSeq "optical".data store ||
     containsSeq "lenscrafters".data store || containsSeq "eyecare".data store ||
     containsSeq "contacts".data content || containsSeq "glasses".data content ||
     containsSeq "lens".data content then
    "Vision"
  else if containsSeq "device".data content || containsSeq "equipment".data content ||
     containsSeq "supply".data content || containsSeq "monitor".data content ||
     containsSeq "meter".data content then
    "Medical Device"
  else if containsSeq "clinic".data store || containsSeq "medical".data store ||
     containsSeq "doctor".data store || containsSeq "physician".data store ||
     containsSeq "consultation".data content || containsSeq "visit".data content ||
     containsSeq "exam".data content then
    "Doctor Visit"
  else "Other"

/-- The list of the six fixed category values. -/
def validCategories : List String :=
  ["Pharmacy", "Dental", "Vision", "Medical Device", "Doctor Visit", "Other"]

/-- The result object of `parseReceiptData`.  `category` and `raw_text` are
optional because the early return for blank input omits both keys (they are
`undefined` on that path). -/
structure ParsedReceipt where
  store_name : String
  amount : Option Rat
  receipt_date : Option String
  category : Option String
  line_items : List LineItem
  raw_text : Option String
deriving DecidableEq

/-- The all-default record returned for blank input. -/
def emptyParsed : ParsedReceipt := ⟨"", none, none, none, [], none⟩

/-- `OCRService.parseReceiptData`. -/
def parseReceiptData (today : JsToday) (extractedText : String) : ParsedReceipt :=
  if jsTrim extractedText = "" then emptyParsed
  else
    ⟨extractStoreName extractedText,
     extractAmount (lowerStr extractedText),
     extractDate today (lowerStr extractedText),
     some (suggestCategory (extractStoreName extractedText) (lowerStr extractedText)),
     extractLineItems extractedText,
     some extractedText⟩

/-! ## Helper lemmas -/

theorem dropWhileLenLe (p : Char → Bool) (l : List Char) :
    (l.dropWhile p).length ≤ l.length := by
  induction l with
  | nil => simp
  | cons c r ih =>
    by_cases h : p c <;> simp [List.dropWhile, h] <;> omega

theorem tryStrictAt_rest_lt {l m v} (h : tryStrictAt l = some (m, v)) :
    v.length < l.length := by
  unfold tryStrictAt at h
  split at h
  · next t =>
    split at h
    · exact absurd h (by simp)
    · split at h
      · next a b v' heq =>
        split at h
        · have hd := dropWhileLenLe Char.isDigit t
          rw [heq] at hd
          simp only [Option.some.injEq, Prod.mk.injEq] at h
          obtain ⟨-, hv⟩ := h
          subst hv
          simp only [List.length_cons] at hd ⊢
          omega
        · exact absurd h (by simp)
      · exact absurd h (by simp)
  · exact absurd h (by simp)

theorem tryLooseAt_rest_lt {l m v} (h : tryLooseAt l = some (m, v)) :
    v.length < l.length := by
  unfold tryLooseAt at h
  split at h
  · next t =>
    split at h
    · exact absurd h (by simp)
    · have hd := dropWhileLenLe Char.isDigit t
      split at h
      · next u heq =>
        simp only [Option.some.injEq, Prod.mk.injEq] at h
        obtain ⟨-, hv⟩ := h
        have hd2 := dropWhileLenLe Char.isDigit u
        rw [heq] at hd
        subst hv
        simp only [List.length_cons] at hd ⊢
        omega
      · simp only [Option.some.injEq, Prod.mk.injEq] at h
        obtain ⟨-, hv⟩ := h
        rw [hv] at hd
        simp only [List.length_cons]
        omega
  · exact absurd h (by simp)

theorem tryDate1At_rest_lt {l p v} (h : tryDate1At l = some (p, v)) :
    v.length < l.length := by
  unfold tryDate1At at h
  split at h
  · exact absurd h (by simp)
  · next hlen1 =>
    split at h
    · next s1 u1 heq1 =>
      split at h
      · split at h
        · exact absurd h (by simp)
        · next hlen2 =>
          split at h
          · next s2 u2 heq2 =>
            split at h
            · split at h
              · exact absurd h (by simp)
              · simp only [Option.some.injEq, Prod.mk.injEq] at h
                obtain ⟨-, hv⟩ := h
                have h1 := dropWhileLenLe Char.isDigit l
                have h2 := dropWhileLenLe Char.isDigit u1
                rw [heq1] at h1
                rw [heq2] at h2
                have h3 : v.length ≤ u2.length := by
                  rw [← hv]; simp
                simp only [List.length_cons] at h1 h2
                omega
            · exact absurd h (by simp)
          · exact absurd h (by simp)
      · exact absurd h (by simp)
    · exact absurd h (by simp)

theorem tryDate2At_rest_lt {l p v} (h : tryDate2At l = some (p, v)) :
    v.length < l.length := by
  unfold tryDate2At at h
  split at h
  · exact absurd h (by simp)
  · next hlen1 =>
    split at h
    · next s1 u1 heq1 =>
      split at h
      · split at h
        · exact absurd h (by simp)
        · next hlen2 =>
          split at h
          · next s2 u2 heq2 =>
            split at h
            · split at h
              · exact absurd h (by simp)
              · simp only [Option.some.injEq, Prod.mk.injEq] at h
                obtain ⟨-, hv⟩ := h
                have h1 := dropWhileLenLe Char.isDigit l
                have h2 := dropWhileLenLe Char.isDigit u1
                rw [heq1] at h1
                rw [heq2] at h2
                have h3 : v.length ≤ u2.length := by
                  rw [← hv]; simp
                simp only [List.length_cons] at h1 h2
                omega
            · exact absurd h (by simp)
          · exact absurd h (by simp)
      · exact absurd h (by simp)
    · exact absurd h (by simp)


theorem charLowerToNat : ∀ n : Nat, 97 ≤ n → n ≤ 122 → (Char.ofNat n).toNat = n := by
  intro n h1 h2
  interval_cases n <;> decide

theorem charLower_idem (c : Char) : charLower (charLower c) = charLower c := by
  unfold charLower
  by_cases h : 65 ≤ c.toNat ∧ c.toNat ≤ 90
  · rw [if_pos h]
    have h1 : (Char.ofNat (c.toNat + 32)).toNat = c.toNat + 32 :=
      charLowerToNat _ (by omega) (by omega)
    rw [if_neg]
    rw [h1]
    omega
  · rw [if_neg h, if_neg h]

theorem lowerL_idem (l : List Char) : lowerL (lowerL l) = lowerL l := by
  induction l with
  | nil => rfl
  | cons c r ih =>
    simp only [lowerL, List.map_cons] at ih ⊢
    rw [charLower_idem]
    exact congrArg _ ih

theorem rangeFilter_some {x : Option Rat} {a : Rat} (h : rangeFilter x = some a) :
    0 < a ∧ a < 10000 := by
  unfold rangeFilter at h
  split at h
  · split at h
    · next b hc =>
      obtain rfl : b = a := by injection h
      exact hc
    · simp at h
  · simp at h

theorem orElseSome {x y : Option Rat} {a : Rat} (h : (x <|> y) = some a) :
    x = some a ∨ (x = none ∧ y = some a) := by
  cases x <;> simp_all

theorem mem_insertDesc {a y : Rat} {l : List Rat} :
    y ∈ insertDesc a l ↔ y = a ∨ y ∈ l := by
  induction l with
  | nil => simp [insertDesc]
  | cons b r ih =>
    unfold insertDesc
    split
    · simp only [List.mem_cons, ih]
      tauto
    · simp only [List.mem_cons]

theorem mem_sortDesc {y : Rat} {l : List Rat} : y ∈ sortDesc l ↔ y ∈ l := by
  induction l with
  | nil => simp [sortDesc]
  | cons b r ih =>
    show y ∈ insertDesc b (sortDesc r) ↔ _
    rw [mem_insertDesc, ih]
    simp

theorem fallback_some {l : List Char} {a : Rat} (h : fallbackAmount l = some a) :
    0 < a ∧ a < 10000 := by
  unfold fallbackAmount at h
  cases hs : sortDesc (looseInRange l) with
  | nil => rw [hs] at h; simp at h
  | cons x tl =>
    rw [hs] at h
    obtain rfl : x = a := by injection h
    have hmem : x ∈ looseInRange l := mem_sortDesc.mp (by rw [hs]; exact List.mem_cons_self _ _)
    obtain ⟨-, hcond⟩ := List.mem_filter.mp hmem
    exact of_decide_eq_true hcond

theorem suggestCategory_mem (a b : String) : suggestCategory a b ∈ validCategories := by
  simp only [suggestCategory]
  split_ifs <;> simp [validCategories]

/-! ## Claims -/

/-- Claim C2: for every empty or whitespace-only input string,
`parseReceiptData` returns `store_name = ""`, `amount = null`,
`receipt_date = null` and `line_items = []` (and, the embedding being a
total function, no exception is raised). -/
theorem C2_blank_defaults (today : JsToday) (s : String) (h : jsTrim s = "") :
    (parseReceiptData today s).store_name = "" ∧
    (parseReceiptData today s).amount = none ∧
    (parseReceiptData today s).receipt_date = none ∧
    (parseReceiptData today s).line_items = [] := by
  simp [parseReceiptData, h, emptyParsed]

/-- Witness for C2 at the whitespace-only input consisting of spaces and a
tab. -/
theorem C2_blank_defaults_witness :
    (parseReceiptData ⟨2024, 0, 1⟩ " \t ").store_name = "" ∧
    (parseReceiptData ⟨2024, 0, 1⟩ " \t ").amount = none ∧
    (parseReceiptData ⟨2024, 0, 1⟩ " \t ").receipt_date = none ∧
    (parseReceiptData ⟨2024, 0, 1⟩ " \t ").line_items = [] :=
  C2_blank_defaults ⟨2024, 0, 1⟩ " \t " (by decide)

/-- Claim C9: `parseReceiptData` never throws: on every string input each
branch totally evaluates, producing the all-default record on blank input
and otherwise the record assembled from the five helper extractors.  In
this embedding every helper is a total function, so the equations below
certify that every input reaches a fully constructed result. -/
theorem C9_total (today : JsToday) (s : String) :
    (jsTrim s = "" → parseReceiptData today s = emptyParsed) ∧
    (jsTrim s ≠ "" →
      parseReceiptData today s =
        ⟨extractStoreName s, extractAmount (lowerStr s), extractDate today (lowerStr s),
         some (suggestCategory (extractStoreName s) (lowerStr s)), extractLineItems s,
         some s⟩) := by
  constructor <;> intro h <;> simp [parseReceiptData, h]

/-- Witness for C9 at a non-blank input. -/
theorem C9_total_witness :
    parseReceiptData ⟨2024, 0, 1⟩ "x $1.00" =
      ⟨extractStoreName "x $1.00", extractAmount (lowerStr "x $1.00"),
       extractDate ⟨2024, 0, 1⟩ (lowerStr "x $1.00"),
       some (suggestCategory (extractStoreName "x $1.00") (lowerStr "x $1.00")),
       extractLineItems "x $1.00", some "x $1.00"⟩ :=
  (C9_total ⟨2024, 0, 1⟩ "x $1.00").2 (by decide)

/-- Counterexample to claim C1 as stated: for empty input the early return
of `parseReceiptData` omits the `category` key entirely (it is `undefined`,
modelled as `none`), so the category field is not one of the six fixed
values there. -/
theorem C1_counterexample :
    (parseReceiptData ⟨2024, 0, 1⟩ "").category = none ∧
    ∀ c ∈ validCategories, (parseReceiptData ⟨2024, 0, 1⟩ "").category ≠ some c := by
  decide

/-- Claim C1 as amended: for every input that is non-blank after trimming,
the category field of the result is present and is one of the six fixed
values Pharmacy, Dental, Vision, Medical Device, Doctor Visit, Other
(with Other as the fall-through default); for blank input the result has
no category field. -/
theorem C1_amended (today : JsToday) (s : String) (h : jsTrim s ≠ "") :
    ∃ c, (parseReceiptData today s).category = some c ∧ c ∈ validCategories := by
  refine ⟨suggestCategory (extractStoreName s) (lowerStr s), ?_, suggestCategory_mem _ _⟩
  simp [parseReceiptData, h]

/-- Witness for the amended C1 at a concrete non-blank input. -/
theorem C1_amended_witness :
    ∃ c, (parseReceiptData ⟨2024, 0, 1⟩ "hello").category = some c ∧
      c ∈ validCategories :=
  C1_amended ⟨2024, 0, 1⟩ "hello" (by decide)

/-- Claim C3: whenever `extractAmount` returns a value, that value is
strictly between 0 and 10000; every return site of the function is guarded
by this range check (the labelled patterns and the single-dollar-match
branch via the explicit filter, the fallback branch because its list is
filtered to the range before sorting). -/
theorem C3_amount_range (s : String) (a : Rat) (h : extractAmount s = some a) :
    0 < a ∧ a < 10000 := by
  unfold extractAmount at h
  rcases orElseSome h with h1 | ⟨-, h⟩
  · exact rangeFilter_some h1
  rcases orElseSome h with h1 | ⟨-, h⟩
  · exact rangeFilter_some h1
  rcases orElseSome h with h1 | ⟨-, h⟩
  · exact rangeFilter_some h1
  rcases orElseSome h with h1 | ⟨-, h⟩
  · exact rangeFilter_some h1
  exact fallback_some h

/-- Witness for C3 at `"total: $25.99"`, whose extracted amount is 25.99. -/
theorem C3_amount_range_witness :
    0 < ((2599 : Rat)/100) ∧ ((2599 : Rat)/100) < 10000 :=
  C3_amount_range "total: $25.99" ((2599 : Rat)/100) (by decide)

/-- Claim C10: for every non-blank input whose lowercase form contains the
substring `rx` anywhere (word boundaries are not considered), the suggested
category is Pharmacy, because the Pharmacy keyword group is evaluated first
and `content.includes('rx')` is plain substring containment. -/
theorem C10_rx_pharmacy (today : JsToday) (s : String) (h1 : jsTrim s ≠ "")
    (h2 : containsSeq "rx".data (lowerL s.data) = true) :
    (parseReceiptData today s).category = some "Pharmacy" := by
  simp only [parseReceiptData, h1, if_neg h1]
  show some (suggestCategory _ _) = _
  simp only [suggestCategory]
  have hdata : (lowerStr s).data = lowerL s.data := rfl
  rw [hdata, lowerL_idem, h2]
  simp

/-- Witness for C10: the input `"marx brothers"` contains `rx` inside a
word and is classified Pharmacy. -/
theorem C10_rx_pharmacy_witness :
    (parseReceiptData ⟨2024, 0, 1⟩ "MARX Brothers").category = some "Pharmacy" :=
  C10_rx_pharmacy ⟨2024, 0, 1⟩ "MARX Brothers" (by decide) (by decide)

theorem allTakeWhile (p : Char → Bool) (l : List Char) :
    ∀ x ∈ l.takeWhile p, p x = true := by
  induction l with
  | nil => simp
  | cons c r ih =>
    rw [List.takeWhile_cons]
    split
    · intro x hx
      rcases List.mem_cons.mp hx with rfl | hx
      · assumption
      · exact ih x hx
    · simp

theorem checkRest_decomp {r cap : List Char} (h : checkRest r = some cap) :
    ∃ w dol, r = w ++ dol ++ cap ∧ w ≠ [] ∧ (∀ x ∈ w, jsWs x = true) ∧
      (dol = [] ∨ dol = ['$']) ∧ numTail cap = true := by
  unfold checkRest at h
  split at h
  · simp at h
  · next hne =>
    have hsplit := List.takeWhile_append_dropWhile (p := jsWs) (l := r)
    have hwne : r.takeWhile jsWs ≠ [] := by
      intro hc
      rw [hc] at hne
      simp at hne
    split at h
    · next t heq =>
      split at h
      · next hnum =>
        obtain rfl : t = cap := by injection h
        refine ⟨r.takeWhile jsWs, ['$'], ?_, hwne, allTakeWhile _ _, Or.inr rfl, hnum⟩
        conv_lhs => rw [← hsplit]
        rw [heq]
        simp
      · simp at h
    · next hnotdollar =>
      split at h
      · next hnum =>
        obtain rfl : r.dropWhile jsWs = cap := by injection h
        refine ⟨r.takeWhile jsWs, [], ?_, hwne, allTakeWhile _ _, Or.inl rfl, hnum⟩
        conv_lhs => rw [← hsplit]
        simp
      · simp at h

theorem matchItemGo_decomp :
    ∀ (rest dRev d cap : List Char),
      matchItemGo dRev rest = some (d, cap) →
      ∃ pre w dol, pre ≠ [] ∧ d = dRev.reverse ++ pre ∧
        rest = pre ++ (w ++ dol ++ cap) ∧ w ≠ [] ∧ (∀ x ∈ w, jsWs x = true) ∧
        (dol = [] ∨ dol = ['$']) ∧ numTail cap = true := by
  intro rest
  induction rest with
  | nil => intro dRev d cap h; simp [matchItemGo] at h
  | cons c r ih =>
    intro dRev d cap h
    unfold matchItemGo at h
    split at h
    · next cap' hres =>
      simp only [Option.some.injEq, Prod.mk.injEq] at h
      obtain ⟨hd, rfl⟩ := h
      obtain ⟨w, dol, hr, hw, hws, hdol, hnum⟩ := checkRest_decomp hres
      refine ⟨[c], w, dol, by simp, ?_, ?_, hw, hws, hdol, hnum⟩
      · rw [← hd, List.reverse_cons]
      · rw [hr]; simp
    · next hres =>
      obtain ⟨pre, w, dol, hpre, hd, hr, hw, hws, hdol, hnum⟩ := ih (c :: dRev) d cap h
      refine ⟨c :: pre, w, dol, by simp, ?_, ?_, hw, hws, hdol, hnum⟩
      · rw [hd, List.reverse_cons, List.append_assoc]
        rfl
      · rw [List.cons_append, ← hr]

/-- Claim C4: whenever `extractDate` returns a date string, it is the ISO
rendering of a day count inside the window from one year before today up
to today; and the scenario input whose only date candidates lie in the
future (two years ahead of a today of 2024-03-15) yields `none`. -/
theorem C4_date_window :
    (∀ (today : JsToday) (s d : String), extractDate today s = some d →
      ∃ z : Int, d = isoOfDay z ∧ oneYearAgoAbs today ≤ z ∧ z ≤ todayAbs today) ∧
    extractDate ⟨2024, 2, 15⟩ "01/15/2026" = none := by
  constructor
  · intro today s d h
    unfold extractDate at h
    rw [Option.map_eq_some'] at h
    obtain ⟨z, hz, hiso⟩ := h
    have hfind := List.find?_some hz
    have hp := of_decide_eq_true hfind
    exact ⟨z, hiso.symm, hp.2, hp.1⟩
  · decide

/-- Witness for C4: on `"03/15/2024"` with today 2024-03-15 the date
2024-03-15 is returned and lies inside the window. -/
theorem C4_date_window_witness :
    ∃ z : Int, "2024-03-15" = isoOfDay z ∧
      oneYearAgoAbs ⟨2024, 2, 15⟩ ≤ z ∧ z ≤ todayAbs ⟨2024, 2, 15⟩ :=
  C4_date_window.1 ⟨2024, 2, 15⟩ "03/15/2024" "2024-03-15" (by decide)

/-- Claim C7, evaluation at the failing input: on `"15/23/12"` with today
2024-06-01 the code returns `"2023-12-15"`.  The sole match has parts
(15, 23, 12); under the claim's (and the source comments') second reading
year=part1, month=part2, day=part3, no reading of this match is a
calendar-valid in-window date, so the claimed algorithm would return null;
the code's actual second reading month=part3, day=part1, year=part2
produces 2023-12-15. -/
theorem C7_eval : extractDate ⟨2024, 5, 1⟩ "15/23/12" = some "2023-12-15" := by
  decide

/-- Claim C8: the extracted line-item list has at most 10 entries, is the
10-truncation of the accepted items of the non-empty trimmed lines in
order of appearance, and a line yields an item exactly when the anchored
description-then-trailing-number pattern matches it with description
capture longer than 2 and parsed price greater than 0; a successful match
decomposes the line into description, non-empty whitespace run, optional
dollar sign, and the numeric price capture running to the end. -/
theorem C8_line_items (s : String) :
    (extractLineItems s).length ≤ 10 ∧
    extractLineItems s = ((linesOf s).filterMap lineItemOf).take 10 ∧
    (∀ (line : String) it, lineItemOf line = some it →
      ∃ d cap p, matchItemLine line.data = some (d, cap) ∧ parseFloatL cap = some p ∧
        2 < d.length ∧ 0 < p ∧ it = ⟨String.mk (jsTrimL d), p⟩) ∧
    (∀ (line : String) d cap p, matchItemLine line.data = some (d, cap) →
      parseFloatL cap = some p →
      2 < d.length → 0 < p → lineItemOf line = some ⟨String.mk (jsTrimL d), p⟩) ∧
    (∀ (line : String) d cap, matchItemLine line.data = some (d, cap) →
      ∃ w dol, line.data = d ++ (w ++ dol ++ cap) ∧ d ≠ [] ∧ w ≠ [] ∧
        (∀ x ∈ w, jsWs x = true) ∧ (dol = [] ∨ dol = ['$']) ∧ numTail cap = true) := by
  refine ⟨List.length_take_le _ _, rfl, ?_, ?_, ?_⟩
  · intro line it h
    unfold lineItemOf at h
    split at h
    · next d cap heq =>
      split at h
      · next p hp =>
        split at h
        · next hcond =>
          obtain rfl : _ = it := by injection h
          exact ⟨d, cap, p, heq, hp, hcond.1, hcond.2, rfl⟩
        · simp at h
      · simp at h
    · simp at h
  · intro line d cap p h1 h2 h3 h4
    unfold lineItemOf
    rw [h1]
    dsimp only
    rw [h2]
    dsimp only
    rw [if_pos ⟨h3, h4⟩]
  · intro line d cap h
    obtain ⟨pre, w, dol, hpre, hd, hr, hw, hws, hdol, hnum⟩ :=
      matchItemGo_decomp line.data [] d cap h
    simp only [List.reverse_nil, List.nil_append] at hd
    subst hd
    exact ⟨w, dol, hr, hpre, hw, hws, hdol, hnum⟩

/-- Witness for C8: the line `"Cleaning $150.00"` is accepted with
description `"Cleaning"` and price 150. -/
theorem C8_line_items_witness :
    lineItemOf "Cleaning $150.00" = some ⟨String.mk (jsTrimL "Cleaning".data), 150⟩ :=
  (C8_line_items "Cleaning $150.00").2.2.2.1 "Cleaning $150.00" "Cleaning".data
    "150.00".data 150 (by decide) (by decide) (by decide) (by decide)

theorem tryStrictAt_dollar {l m v : List Char} (h : tryStrictAt l = some (m, v)) :
    ∃ t, m = '$' :: t := by
  unfold tryStrictAt at h
  split at h
  · split at h
    · exact absurd h (by simp)
    · split at h
      · split at h
        · simp only [Option.some.injEq, Prod.mk.injEq] at h
          exact ⟨_, h.1.symm⟩
        · exact absurd h (by simp)
      · exact absurd h (by simp)
  · exact absurd h (by simp)

theorem scanStrictF_mem_dollar :
    ∀ (fuel : Nat) (l m : List Char), m ∈ scanStrictF fuel l → ∃ t, m = '$' :: t := by
  intro fuel
  induction fuel with
  | zero =>
    intro l m h
    cases l <;> simp [scanStrictF] at h
  | succ fuel ih =>
    intro l m h
    cases l with
    | nil => simp [scanStrictF] at h
    | cons c r =>
      revert h
      cases htry : tryStrictAt (c :: r) with
      | none =>
        intro h
        simp only [scanStrictF, htry] at h
        exact ih r m h
      | some mv =>
        intro h
        simp only [scanStrictF, htry] at h
        rcases List.mem_cons.mp h with rfl | h2
        · exact tryStrictAt_dollar htry
        · exact ih mv.2 m h2

theorem scanStrict_mem_dollar {l m : List Char} (h : m ∈ scanStrict l) :
    ∃ t, m = '$' :: t :=
  scanStrictF_mem_dollar l.length l m h

theorem parseFloat_dollar (t : List Char) : parseFloatL ('$' :: t) = none := by
  simp [parseFloatL, jsWs, List.dropWhile_cons, List.takeWhile_cons]

/-- Counterexample to claim C5 as stated: on `"$5.00 $42.50"` no labelled
pattern matches, and the claim predicts the first `$X.XX` token, 5.00; the
code instead parses `matches[1]` (the second full match, still carrying its
dollar sign, hence `NaN`), so the strict pattern yields nothing and the
fallback returns the largest token, 42.50. -/
theorem C5_counterexample :
    extractAmount "$5.00 $42.50" = some ((85 : Rat)/2) ∧ ¬ ((85 : Rat)/2 = 5) := by
  decide

/-- Claim C5 as amended: amount extraction tries the three labelled
patterns on their first occurrence in the fixed order total, amount,
balance and returns immediately the first whose parsed value lies in
(0, 10000); the `$X.XX` pattern then returns immediately only when the
text contains exactly one such match and its value lies in the range (with
two or more matches this step never returns, because the source parses the
second full match string including its `$`, which is `NaN`); otherwise the
fallback returns the largest in-range `$`-token value, or null.  Stated as
the equivalence of `extractAmount` with `extractAmountSpec`, the direct
transcription of this description. -/
theorem C5_amended (s : String) : extractAmount s = extractAmountSpec s := by
  have key : (rangeFilter (strictCand s.data) <|> fallbackAmount s.data)
      = (match scanStrict s.data with
         | [m] => rangeFilter (parseFloatL (replaceFirst '$' m)) <|> fallbackAmount s.data
         | _ => fallbackAmount s.data) := by
    cases h : scanStrict s.data with
    | nil => simp [strictCand, h, rangeFilter]
    | cons m tl =>
      cases tl with
      | nil => simp [strictCand, h]
      | cons m1 tl2 =>
        have hm1 : m1 ∈ scanStrict s.data := by
          rw [h]; exact List.mem_cons_of_mem _ (List.mem_cons_self _ _)
        obtain ⟨t, rfl⟩ := scanStrict_mem_dollar hm1
        simp [strictCand, h, parseFloat_dollar, rangeFilter]
  unfold extractAmount extractAmountSpec
  rw [key]

theorem leadsWith_append {p l : List Char} (h : leadsWith p l = true) :
    ∃ rest, l = p ++ rest := by
  induction p generalizing l with
  | nil => exact ⟨l, rfl⟩
  | cons a as ih =>
    cases l with
    | nil => simp [leadsWith] at h
    | cons b bs =>
      simp only [leadsWith, Bool.and_eq_true, beq_iff_eq] at h
      obtain ⟨rfl, h2⟩ := h
      obtain ⟨rest, rfl⟩ := ih h2
      exact ⟨rest, rfl⟩

theorem leadsWith_head {tt : List Char} {x : Char} {l : List Char}
    (h : leadsWith ('$' :: tt) (x :: l) = true) : x = '$' := by
  simp only [leadsWith, Bool.and_eq_true, beq_iff_eq] at h
  exact h.1.symm

theorem contains_skip (t : List Char) (tt : List Char) (htt : t = '$' :: tt) :
    ∀ (a b : List Char), (∀ x ∈ a, x ≠ '$') →
      containsSeq t (a ++ b) = true → containsSeq t b = true := by
  intro a
  induction a with
  | nil => intro b _ h; simpa using h
  | cons x a' ih =>
    intro b ha h
    have hstep : containsSeq t (x :: (a' ++ b)) =
        (leadsWith t (x :: (a' ++ b)) || containsSeq t (a' ++ b)) := rfl
    rw [List.cons_append, hstep] at h
    rcases Bool.or_eq_true_iff.mp h with h1 | h2
    · exfalso
      rw [htt] at h1
      exact ha x (List.mem_cons_self _ _) (leadsWith_head h1)
    · exact ih b (fun y hy => ha y (List.mem_cons_of_mem _ hy)) h2

theorem digit_ne_dollar {x : Char} (h : x.isDigit = true) : x ≠ '$' := by
  intro he
  subst he
  exact absurd h (by decide)

theorem digitVal_le_9 {c : Char} (h : c.isDigit = true) : digitVal c ≤ 9 := by
  have hb : 48 ≤ c.toNat ∧ c.toNat ≤ 57 := by
    unfold Char.isDigit at h
    rw [Bool.and_eq_true, decide_eq_true_eq, decide_eq_true_eq] at h
    exact ⟨h.1, h.2⟩
  unfold digitVal
  omega

theorem natOfDigits_lt (ds : List Char) (h : ∀ x ∈ ds, Char.isDigit x = true) :
    natOfDigits ds < 10 ^ ds.length := by
  induction ds with
  | nil => simp [natOfDigits]
  | cons c r ih =>
    have h1 : digitVal c ≤ 9 := digitVal_le_9 (h c (List.mem_cons_self _ _))
    have h2 := ih (fun x hx => h x (List.mem_cons_of_mem _ hx))
    simp only [natOfDigits, List.length_cons]
    calc digitVal c * 10 ^ r.length + natOfDigits r
        ≤ 9 * 10 ^ r.length + natOfDigits r :=
          Nat.add_le_add_right (Nat.mul_le_mul_right _ h1) _
      _ < 9 * 10 ^ r.length + 10 ^ r.length := Nat.add_lt_add_left h2 _
      _ = 10 ^ (r.length + 1) := by ring

theorem takeWhile_eq_self {p : Char → Bool} {l : List Char}
    (h : ∀ x ∈ l, p x = true) : l.takeWhile p = l := by
  induction l with
  | nil => rfl
  | cons c r ih =>
    rw [List.takeWhile_cons, if_pos (h c (List.mem_cons_self _ _))]
    rw [ih (fun x hx => h x (List.mem_cons_of_mem _ hx))]

theorem tryStrictAt_shape {l m v : List Char} (h : tryStrictAt l = some (m, v)) :
    l = m ++ v ∧ ∃ mt, m = '$' :: mt ∧ ∀ x ∈ mt, x ≠ '$' := by
  unfold tryStrictAt at h
  split at h
  · next t =>
    split at h
    · exact absurd h (by simp)
    · split at h
      · next a b v' heq =>
        split at h
        · next hab =>
          rw [Bool.and_eq_true] at hab
          simp only [Option.some.injEq, Prod.mk.injEq] at h
          obtain ⟨hm, hv⟩ := h
          have hsplit := List.takeWhile_append_dropWhile (p := Char.isDigit) (l := t)
          constructor
          · rw [← hm, ← hv]
            conv_lhs => rw [show ('$' :: t : List Char) = '$' :: t from rfl, ← hsplit]
            rw [heq]
            simp
          · refine ⟨t.takeWhile Char.isDigit ++ ['.', a, b],
              by rw [← hm, List.cons_append], ?_⟩
            intro x hx
            rcases List.mem_append.mp hx with hx1 | hx2
            · exact digit_ne_dollar (allTakeWhile _ _ x hx1)
            · rcases List.mem_cons.mp hx2 with rfl | hx3
              · decide
              · rcases List.mem_cons.mp hx3 with rfl | hx4
                · exact digit_ne_dollar hab.1
                · rcases List.mem_cons.mp hx4 with rfl | hx5
                  · exact digit_ne_dollar hab.2
                  · simp at hx5
        · exact absurd h (by simp)
      · exact absurd h (by simp)
  · exact absurd h (by simp)

theorem tryLooseAt_shape {l m v : List Char} (h : tryLooseAt l = some (m, v)) :
    l = m ++ v ∧ ∃ mt, m = '$' :: mt ∧ ∀ x ∈ mt, x ≠ '$' := by
  unfold tryLooseAt at h
  split at h
  · next t =>
    split at h
    · exact absurd h (by simp)
    · have hsplit := List.takeWhile_append_dropWhile (p := Char.isDigit) (l := t)
      split at h
      · next u heq =>
        simp only [Option.some.injEq, Prod.mk.injEq] at h
        obtain ⟨hm, hv⟩ := h
        have hu := List.takeWhile_append_dropWhile (p := Char.isDigit) (l := u)
        constructor
        · rw [← hm, ← hv]
          conv_lhs => rw [show ('$' :: t : List Char) = '$' :: t from rfl, ← hsplit]
          rw [heq, ← hu]
          simp
        · refine ⟨t.takeWhile Char.isDigit ++ '.' :: u.takeWhile Char.isDigit,
            by rw [← hm, List.cons_append], ?_⟩
          intro x hx
          rcases List.mem_append.mp hx with hx1 | hx2
          · exact digit_ne_dollar (allTakeWhile _ _ x hx1)
          · rcases List.mem_cons.mp hx2 with rfl | hx3
            · decide
            · exact digit_ne_dollar (allTakeWhile _ _ x hx3)
      · simp only [Option.some.injEq, Prod.mk.injEq] at h
        obtain ⟨hm, hv⟩ := h
        constructor
        · rw [← hm, ← hv]
          conv_lhs => rw [show ('$' :: t : List Char) = '$' :: t from rfl, ← hsplit]
          simp
        · refine ⟨t.takeWhile Char.isDigit, by rw [← hm], ?_⟩
          intro x hx
          exact digit_ne_dollar (allTakeWhile _ _ x hx)
  · exact absurd h (by simp)

theorem tryStrictAt_500 (rest : List Char) :
    tryStrictAt ("$5.00".data ++ rest) = some ("$5.00".data, rest) := by
  show tryStrictAt ('$' :: '5' :: '.' :: '0' :: '0' :: rest) = some ("$5.00".data, rest)
  simp [tryStrictAt, List.takeWhile_cons, List.dropWhile_cons]

theorem tryStrictAt_4250 (rest : List Char) :
    tryStrictAt ("$42.50".data ++ rest) = some ("$42.50".data, rest) := by
  show tryStrictAt ('$' :: '4' :: '2' :: '.' :: '5' :: '0' :: rest) = some ("$42.50".data, rest)
  simp [tryStrictAt, List.takeWhile_cons, List.dropWhile_cons]

theorem tryLooseAt_4250 (rest : List Char) :
    tryLooseAt ("$42.50".data ++ rest) =
      some ('$' :: '4' :: '2' :: '.' :: '5' :: '0' :: rest.takeWhile Char.isDigit,
        rest.dropWhile Char.isDigit) := by
  show tryLooseAt ('$' :: '4' :: '2' :: '.' :: '5' :: '0' :: rest) = _
  simp [tryLooseAt, List.takeWhile_cons, List.dropWhile_cons]

theorem scanStrictF_coverage (t tt : List Char) (htt : t = '$' :: tt)
    (hexact : ∀ rest, tryStrictAt (t ++ rest) = some (t, rest)) :
    ∀ (fuel : Nat) (l : List Char), l.length ≤ fuel → containsSeq t l = true →
      t ∈ scanStrictF fuel l := by
  intro fuel
  induction fuel with
  | zero =>
    intro l hl hc
    cases l with
    | nil => simp [containsSeq, htt] at hc
    | cons c r => simp at hl
  | succ fuel ih =>
    intro l hl hc
    cases l with
    | nil => simp [containsSeq, htt] at hc
    | cons c r =>
      by_cases hp : leadsWith t (c :: r) = true
      · obtain ⟨rest, hrest⟩ := leadsWith_append hp
        have htry := hexact rest
        rw [← hrest] at htry
        simp only [scanStrictF, htry]
        exact List.mem_cons_self _ _
      · have hp' : leadsWith t (c :: r) = false := by
          revert hp
          cases leadsWith t (c :: r) <;> simp
        have hc' : containsSeq t r = true := by
          have hstep : containsSeq t (c :: r) =
              (leadsWith t (c :: r) || containsSeq t r) := rfl
          rw [hstep, hp', Bool.false_or] at hc
          exact hc
        cases htry : tryStrictAt (c :: r) with
        | none =>
          simp only [scanStrictF, htry]
          exact ih r (by simp only [List.length_cons] at hl; omega) hc'
        | some mv =>
          obtain ⟨m, v⟩ := mv
          simp only [scanStrictF, htry]
          obtain ⟨hlv, mt, hm, hmt⟩ := tryStrictAt_shape htry
          rw [hm, List.cons_append] at hlv
          have hcr : c = '$' ∧ r = mt ++ v := by
            rw [List.cons_eq_cons] at hlv
            exact hlv
          have hcv : containsSeq t v = true :=
            contains_skip t tt htt mt v hmt (hcr.2 ▸ hc')
          have hvlen : v.length ≤ fuel := by
            have hrest := tryStrictAt_rest_lt htry
            simp only [List.length_cons] at hrest hl
            omega
          exact List.mem_cons_of_mem _ (ih v hvlen hcv)

theorem natOfDigits_50 (ds : List Char) :
    natOfDigits ('5' :: '0' :: ds) = 5 * 10 ^ (ds.length + 1) + natOfDigits ds := by
  have h5 : digitVal '5' = 5 := by decide
  have h0 : digitVal '0' = 0 := by decide
  simp only [natOfDigits, List.length_cons, h5, h0]
  ring

theorem parseFloat_4250 (ds : List Char) (hds : ∀ x ∈ ds, Char.isDigit x = true) :
    ∃ q, parseFloatL ('4' :: '2' :: '.' :: '5' :: '0' :: ds) = some q ∧
      (85 : Rat)/2 ≤ q ∧ q < 10000 := by
  have htw : ds.takeWhile Char.isDigit = ds := takeWhile_eq_self hds
  have h42 : natOfDigits ['4', '2'] = 42 := by decide
  have heval : parseFloatL ('4' :: '2' :: '.' :: '5' :: '0' :: ds) =
      some ((42 : Rat) + fracOfDigits ('5' :: '0' :: ds)) := by
    simp [parseFloatL, jsWs, List.dropWhile_cons, List.takeWhile_cons, htw, h42]
  refine ⟨_, heval, ?_, ?_⟩
  all_goals
    have hn := natOfDigits_lt ds hds
    have hfrac : fracOfDigits ('5' :: '0' :: ds) =
        ((5 * 10 ^ (ds.length + 1) + natOfDigits ds : Nat) : Rat) /
          (10 : Rat) ^ (ds.length + 2) := by
      rw [fracOfDigits, natOfDigits_50]
      simp [List.length_cons]
    have hpos : (0 : Rat) < (10 : Rat) ^ (ds.length + 2) := by positivity
    have hcast : ((natOfDigits ds : Nat) : Rat) < (10 : Rat) ^ ds.length := by
      exact_mod_cast hn
    have hnn : (0 : Rat) ≤ ((natOfDigits ds : Nat) : Rat) := Nat.cast_nonneg _
    have hp1 : (10 : Rat) ^ (ds.length + 1) = 10 * (10 : Rat) ^ ds.length := by ring
    have hp2 : (10 : Rat) ^ (ds.length + 2) = 100 * (10 : Rat) ^ ds.length := by ring
    have hxpos : (0 : Rat) < (10 : Rat) ^ ds.length := by positivity
  · have hAB : (1 : Rat)/2 ≤
        ((5 * 10 ^ (ds.length + 1) + natOfDigits ds : Nat) : Rat) /
          (10 : Rat) ^ (ds.length + 2) := by
      rw [le_div_iff hpos]
      push_cast
      nlinarith
    rw [hfrac]
    linarith
  · have hAB : ((5 * 10 ^ (ds.length + 1) + natOfDigits ds : Nat) : Rat) /
        (10 : Rat) ^ (ds.length + 2) < 1 := by
      rw [div_lt_one hpos]
      push_cast
      nlinarith
    rw [hfrac]
    linarith

theorem scanLooseF_coverage42 :
    ∀ (fuel : Nat) (l : List Char), l.length ≤ fuel →
      containsSeq "$42.50".data l = true →
      ∃ m, m ∈ scanLooseF fuel l ∧ ∃ q, parseFloatL (replaceFirst '$' m) = some q ∧
        (85 : Rat)/2 ≤ q ∧ q < 10000 := by
  intro fuel
  induction fuel with
  | zero =>
    intro l hl hc
    cases l with
    | nil => simp [containsSeq] at hc
    | cons c r => simp at hl
  | succ fuel ih =>
    intro l hl hc
    cases l with
    | nil => simp [containsSeq] at hc
    | cons c r =>
      by_cases hp : leadsWith "$42.50".data (c :: r) = true
      · obtain ⟨rest, hrest⟩ := leadsWith_append hp
        have htry := tryLooseAt_4250 rest
        rw [← hrest] at htry
        refine ⟨'$' :: '4' :: '2' :: '.' :: '5' :: '0' :: rest.takeWhile Char.isDigit,
          ?_, ?_⟩
        · simp only [scanLooseF, htry]
          exact List.mem_cons_self _ _
        · have hrep : replaceFirst '$'
              ('$' :: '4' :: '2' :: '.' :: '5' :: '0' :: rest.takeWhile Char.isDigit) =
              '4' :: '2' :: '.' :: '5' :: '0' :: rest.takeWhile Char.isDigit := by
            simp [replaceFirst]
          rw [hrep]
          exact parseFloat_4250 _ (allTakeWhile _ _)
      · have hp' : leadsWith "$42.50".data (c :: r) = false := by
          revert hp
          cases leadsWith "$42.50".data (c :: r) <;> simp
        have hc' : containsSeq "$42.50".data r = true := by
          have hstep : containsSeq "$42.50".data (c :: r) =
              (leadsWith "$42.50".data (c :: r) || containsSeq "$42.50".data r) := rfl
          rw [hstep, hp', Bool.false_or] at hc
          exact hc
        cases htry : tryLooseAt (c :: r) with
        | none =>
          obtain ⟨m, hm, hq⟩ := ih r (by simp only [List.length_cons] at hl; omega) hc'
          refine ⟨m, ?_, hq⟩
          simp only [scanLooseF, htry]
          exact hm
        | some mv =>
          obtain ⟨m0, v⟩ := mv
          obtain ⟨hlv, mt, hm0, hmt⟩ := tryLooseAt_shape htry
          rw [hm0, List.cons_append] at hlv
          have hcr : c = '$' ∧ r = mt ++ v := by
            rw [List.cons_eq_cons] at hlv
            exact hlv
          have hcv : containsSeq "$42.50".data v = true :=
            contains_skip "$42.50".data "42.50".data rfl mt v hmt (hcr.2 ▸ hc')
          have hvlen : v.length ≤ fuel := by
            have hrest := tryLooseAt_rest_lt htry
            simp only [List.length_cons] at hrest hl
            omega
          obtain ⟨m, hm, hq⟩ := ih v hvlen hcv
          refine ⟨m, ?_, hq⟩
          simp only [scanLooseF, htry]
          exact List.mem_cons_of_mem _ hm

theorem sortDesc_head_ge :
    ∀ (l : List Rat) (h : Rat) (tl : List Rat), sortDesc l = h :: tl →
      ∀ y ∈ sortDesc l, ¬ Rat.blt h y = true := by
  have key : ∀ (l : List Rat), ∀ h tl, sortDesc l = h :: tl →
      ∀ y ∈ sortDesc l, ¬ h < y := by
    intro l
    induction l with
    | nil => intro h tl habs; simp [sortDesc] at habs
    | cons b r ih =>
      have hstep : sortDesc (b :: r) = insertDesc b (sortDesc r) := rfl
      intro h tl heq y hy
      rw [hstep] at heq hy
      cases hs : sortDesc r with
      | nil =>
        rw [hs] at heq hy
        simp [insertDesc] at heq hy
        rw [← heq.1, hy]
        exact lt_irrefl _
      | cons b2 r2 =>
        rw [hs] at heq hy
        unfold insertDesc at heq hy
        split at heq
        · next hblt =>
          rw [if_pos hblt] at hy
          have hb2 : b2 = h := by
            injection heq with h1 _
          subst hb2
          rcases List.mem_cons.mp hy with rfl | hy2
          · exact lt_irrefl _
          · have hins := mem_insertDesc.mp hy2
            rcases hins with rfl | hy3
            · exact not_lt.mpr (le_of_lt hblt)
            · exact ih b2 r2 hs y (by rw [hs]; exact List.mem_cons_of_mem _ hy3)
        · next hblt =>
          rw [if_neg hblt] at hy
          have hbh : b = h := by
            injection heq with h1 _
          subst hbh
          rcases List.mem_cons.mp hy with rfl | hy2
          · exact lt_irrefl _
          · rcases List.mem_cons.mp hy2 with rfl | hy3
            · exact hblt
            · have hble : ¬ b2 < y := ih b2 r2 hs y (by rw [hs]; exact List.mem_cons_of_mem _ hy3)
              have hb2b : ¬ b < b2 := hblt
              intro hby
              have h1 : y ≤ b2 := not_lt.mp hble
              have h2 : b2 ≤ b := not_lt.mp hb2b
              exact absurd (lt_of_lt_of_le (lt_of_lt_of_le hby h1) h2) (lt_irrefl b)
  intro l h tl heq y hy
  exact key l h tl heq y hy

theorem sortDesc_head_of_max {x : Rat} {l : List Rat} (hx : x ∈ l)
    (hmax : ∀ y ∈ l, y ≤ x) : (sortDesc l).head? = some x := by
  have hx' : x ∈ sortDesc l := mem_sortDesc.mpr hx
  cases hs : sortDesc l with
  | nil => rw [hs] at hx'; simp at hx'
  | cons h tl =>
    have hh : h ∈ l := mem_sortDesc.mp (by rw [hs]; exact List.mem_cons_self _ _)
    have h1 : h ≤ x := hmax h hh
    have h2 : ¬ h < x := sortDesc_head_ge l h tl hs x (by rw [hs]; rw [hs] at hx'; exact hx')
    have hxh : x = h := le_antisymm (not_lt.mp h2) h1
    rw [hxh]
    simp

theorem findLabeledL_some_contains {lbl ll cap : List Char}
    (h : findLabeledL lbl ll = some cap) : containsSeq lbl ll = true := by
  induction ll with
  | nil => simp [findLabeledL] at h
  | cons c r ih =>
    unfold findLabeledL at h
    split at h
    · next cap' heq =>
      cases hlw : leadsWith lbl (c :: r) with
      | true =>
        show (leadsWith lbl (c :: r) || containsSeq lbl r) = true
        rw [hlw, Bool.true_or]
      | false =>
        exfalso
        unfold matchLabelAt at heq
        rw [hlw] at heq
        simp at heq
    · show (leadsWith lbl (c :: r) || containsSeq lbl r) = true
      rw [ih h, Bool.or_true]

theorem two_mem_shape {α : Type} {x y : α} {l : List α} (hx : x ∈ l) (hy : y ∈ l)
    (hxy : x ≠ y) : ∃ a b tl, l = a :: b :: tl := by
  cases l with
  | nil => simp at hx
  | cons a tl1 =>
    cases tl1 with
    | nil =>
      simp at hx hy
      exact absurd (hx.trans hy.symm) hxy
    | cons b tl2 => exact ⟨a, b, tl2, rfl⟩

/-- Counterexample to claim C6 as stated: the input
`"$5.00 $42.50 $99.99"` contains the two required tokens and none of the
labels, yet the extracted amount is 99.99, not 42.50 — the claim's
universal quantification over all such inputs ignores other, larger
qualifying tokens. -/
theorem C6_counterexample :
    containsSeq "$5.00".data "$5.00 $42.50 $99.99".data = true ∧
    containsSeq "$42.50".data "$5.00 $42.50 $99.99".data = true ∧
    containsSeq "total".data (lowerL "$5.00 $42.50 $99.99".data) = false ∧
    containsSeq "amount".data (lowerL "$5.00 $42.50 $99.99".data) = false ∧
    containsSeq "balance".data (lowerL "$5.00 $42.50 $99.99".data) = false ∧
    extractAmount "$5.00 $42.50 $99.99" = some ((9999 : Rat)/100) ∧
    ¬ ((9999 : Rat)/100 = (85 : Rat)/2) := by
  decide

/-- Claim C6 as amended: for every input string that contains the two
dollar tokens `$5.00` and `$42.50`, contains none of the labels total,
amount, balance (case-insensitively), and in which no `$`-prefixed token
value inside (0, 10000) exceeds 42.50, the extracted amount is 42.50 —
the largest qualifying candidate of the fallback wins when no labelled
pattern exists (the two strict matches make the third pattern parse `NaN`,
so the fallback decides). -/
theorem C6_amended (s : String)
    (h5 : containsSeq "$5.00".data s.data = true)
    (h42 : containsSeq "$42.50".data s.data = true)
    (hnoT : containsSeq "total".data (lowerL s.data) = false)
    (hnoA : containsSeq "amount".data (lowerL s.data) = false)
    (hnoB : containsSeq "balance".data (lowerL s.data) = false)
    (hmax : ∀ q ∈ looseInRange s.data, ¬ ((85 : Rat)/2 < q)) :
    extractAmount s = some ((85 : Rat)/2) := by
  have hlab : ∀ lbl, containsSeq lbl (lowerL s.data) = false →
      rangeFilter (labeledCand lbl s.data) = none := by
    intro lbl hno
    have hnone : findLabeledL lbl (lowerL s.data) = none := by
      cases hf : findLabeledL lbl (lowerL s.data) with
      | none => rfl
      | some cap =>
        exact absurd (findLabeledL_some_contains hf) (by rw [hno]; simp)
    simp [labeledCand, hnone, rangeFilter]
  have hm5 : "$5.00".data ∈ scanStrict s.data :=
    scanStrictF_coverage "$5.00".data "5.00".data rfl tryStrictAt_500 _ _ le_rfl h5
  have hm42 : "$42.50".data ∈ scanStrict s.data :=
    scanStrictF_coverage "$42.50".data "42.50".data rfl tryStrictAt_4250 _ _ le_rfl h42
  obtain ⟨m0, m1, tl, hshape⟩ := two_mem_shape hm5 hm42 (by decide)
  have hstrict : rangeFilter (strictCand s.data) = none := by
    have hm1mem : m1 ∈ scanStrict s.data := by
      rw [hshape]
      exact List.mem_cons_of_mem _ (List.mem_cons_self _ _)
    obtain ⟨t, rfl⟩ := scanStrict_mem_dollar hm1mem
    simp [strictCand, hshape, parseFloat_dollar, rangeFilter]
  have hfall : fallbackAmount s.data = some ((85 : Rat)/2) := by
    obtain ⟨m, hm, q, hq, hlo, hhi⟩ := scanLooseF_coverage42 _ _ le_rfl h42
    have hql : q ∈ looseVals s.data := List.mem_filterMap.mpr ⟨m, hm, hq⟩
    have hqr : q ∈ looseInRange s.data := by
      refine List.mem_filter.mpr ⟨hql, ?_⟩
      exact decide_eq_true ⟨lt_of_lt_of_le (by norm_num) hlo, hhi⟩
    have hqe : q = (85 : Rat)/2 := le_antisymm (not_lt.mp (hmax q hqr)) hlo
    subst hqe
    exact sortDesc_head_of_max hqr (fun y hy => not_lt.mp (hmax y hy))
  unfold extractAmount
  rw [hlab _ hnoT, hlab _ hnoA, hlab _ hnoB, hstrict, hfall]
  rfl

/-- Witness for the amended C6 at the scenario input `"$5.00 $42.50"`. -/
theorem C6_amended_witness : extractAmount "$5.00 $42.50" = some ((85 : Rat)/2) :=
  C6_amended "$5.00 $42.50" (by decide) (by decide) (by decide) (by decide)
    (by decide) (by decide)
